import Mathlib

/-!
Verification of the Mononoke storage core against its specification.

This development shallowly embeds the relevant parts of the source:

* the multiplexed blobstore (mononoke/blobstore/multiplexedblob/src/base.rs):
  the get race loop, the scrub classification, and the put quorum machinery
  built from select_ok / finish_put;
* the fastlog batch encoding (mononoke/apiserver/fastlog/src/fastlog_impl.rs):
  convert_to_raw_list and flatten_raw_list;
* the derived-data engine (mononoke/derived_data/src/derive_impl.rs):
  discovery, topological ordering, chunked derivation with a write-back
  cache, and the lease loop of derive_may_panic;
* the changeset creation pipeline and hg generation lease
  (mononoke/blobrepo/src/repo.rs).

Asynchronous completion is modelled by explicit completion orders: a list of
per-backend outcomes is given in the order the corresponding futures complete,
and put attempts additionally carry an abstract completion time.  Fallible
operations return Except or Option; a Rust panic is modelled as Option.none.
-/

deriving instance DecidableEq for Except

namespace Multiplex

/-- Outcome of one backend request in a multiplexed get / scrub get:
the backend returned the value, returned None, or errored. -/
inductive BResult (V : Type) where
  | found (v : V)
  | missing
  | failed
deriving DecidableEq

/-- The aggregate error kinds of the multiplexed blobstore (ErrorKind in
base.rs).  Error payloads carry backend ids instead of error objects. -/
inductive MultiplexError (V : Type) where
  | someFailedOthersNone (errors : List Nat)
  | allFailed (errors : List Nat)
  | valueMismatch (answered missing : List Nat)
  | someMissingItem (missing : List Nat) (value : Option V)
deriving DecidableEq

/-- True when the backend request errored. -/
def BResult.isFailed {V : Type} : BResult V → Bool
  | .failed => true
  | _ => false

/-- True when the backend returned the value. -/
def BResult.isFound {V : Type} : BResult V → Bool
  | .found _ => true
  | _ => false

/-- The terminal classification of the get loop, reached once every request
has responded without any backend returning the value. -/
def getFinish {V : Type} (blobstoresCount : Nat) (errors : List Nat) :
    Except (MultiplexError V) (Option V) :=
  if errors = [] then .ok none
  else if errors.length = blobstoresCount then .error (.allFailed errors)
  else .error (.someFailedOthersNone errors)

/-- The loop body of MultiplexedBlobstoreBase::get, iterated over backend
responses in completion order.  The first component is the overall result;
the second is the list of still-pending requests that get spawned in the
background on an early break (empty when the get was not sampled for
logging, because then no spawn happens and the requests are dropped). -/
def getLoop {V : Type} (blobstoresCount : Nat) (sampled : Bool) :
    List (Nat × BResult V) → List Nat →
    Except (MultiplexError V) (Option V) × List (Nat × BResult V)
  | [], errors => (getFinish blobstoresCount errors, [])
  | (_, .found v) :: rest, _ => (.ok (some v), if sampled then rest else [])
  | (_, .missing) :: rest, errors => getLoop blobstoresCount sampled rest errors
  | (i, .failed) :: rest, errors => getLoop blobstoresCount sampled rest (errors ++ [i])

/-- MultiplexedBlobstoreBase::get over the responses of all backends, given
in completion order.  Each backend responds exactly once, so the backend
count equals the length of the response list. -/
def multiplexed_get {V : Type} (sampled : Bool) (results : List (Nat × BResult V)) :
    Except (MultiplexError V) (Option V) × List (Nat × BResult V) :=
  getLoop results.length sampled results []

/-- Ids of backends whose request errored. -/
def errorIds {V : Type} (results : List (Nat × BResult V)) : List Nat :=
  results.filterMap (fun r => match r.2 with | .failed => some r.1 | _ => none)

/-- Ids of backends that returned None. -/
def missingIds {V : Type} (results : List (Nat × BResult V)) : List Nat :=
  results.filterMap (fun r => match r.2 with | .missing => some r.1 | _ => none)

/-- Ids of backends that returned a value. -/
def answeredIds {V : Type} (results : List (Nat × BResult V)) : List Nat :=
  results.filterMap (fun r => match r.2 with | .found _ => some r.1 | _ => none)

/-- Values returned by the backends that held the key, in response order. -/
def foundValues {V : Type} (results : List (Nat × BResult V)) : List V :=
  results.filterMap (fun r => match r.2 with | .found v => some v | _ => none)

/-- The all_same flag of scrub_get: the first present value is best_value and
every later present value is compared against it. -/
def allSame {V : Type} [DecidableEq V] : List V → Bool
  | [] => true
  | v :: rest => rest.all (fun w => w = v)

/-- MultiplexedBlobstoreBase::scrub_get: full fan-out, then classification of
the per-backend outcomes (base.rs lines 190-245). -/
def scrub_get {V : Type} [DecidableEq V] (results : List (Nat × BResult V)) :
    Except (MultiplexError V) (Option V) :=
  if (results.filter (fun r => !r.2.isFailed)).isEmpty then
    .error (.allFailed (errorIds results))
  else if !allSame (foundValues results) then
    .error (.valueMismatch (answeredIds results) (missingIds results))
  else
    match (foundValues results).head? with
    | none => .error (.someFailedOthersNone (errorIds results))
    | some v =>
      if missingIds results = [] then .ok (some v)
      else .error (.someMissingItem (missingIds results) (some v))

/-- One backend put attempt inside a multiplexed put: an abstract completion
time, the outcome of the backend put, and the outcome of the sync-queue
write that the put handler performs after that backend put succeeds. -/
structure PutAttempt where
  time : Nat
  putOk : Bool
  queueOk : Bool
deriving DecidableEq

/-- The winning future of select_ok over put attempts: the successful put
with the earliest completion time, if any put succeeds. -/
def minOk : List PutAttempt → Option PutAttempt
  | [] => none
  | a :: rest =>
    match minOk rest with
    | none => if a.putOk then some a else none
    | some b => if a.putOk && a.time ≤ b.time then some a else some b

/-- The attempts still in flight when attempt w completes.  Attempts that
already completed (successes and errors alike) are no longer in the list
select_ok hands back. -/
def laterThan (w : PutAttempt) (l : List PutAttempt) : List PutAttempt :=
  l.filter (fun a => w.time < a.time)

/-- The recursion of multiplexed_put / finish_put, with fuel for
termination: select_ok picks the earliest successful put; the put succeeds
when the queue write of the winner succeeds, or no other puts remain in
flight, or the recursive multiplexed put over the remaining attempts
succeeds.  If every put fails, the whole put fails. -/
def multiplexed_put_fuel : Nat → List PutAttempt → Bool
  | 0, _ => false
  | fuel + 1, puts =>
    match minOk puts with
    | none => false
    | some w =>
      w.queueOk || (laterThan w puts).isEmpty || multiplexed_put_fuel fuel (laterThan w puts)

/-- MultiplexedBlobstoreBase::put over a list of put attempts: true when the
put reports success to the caller. -/
def multiplexed_put (puts : List PutAttempt) : Bool :=
  multiplexed_put_fuel puts.length puts

end Multiplex

namespace Fastlog

/-- External representation of one parent in a fastlog batch. -/
inductive FastlogParent where
  | known (cs : Nat)
  | unknown
deriving DecidableEq

/-- Index of the last occurrence of a changeset id in a list.  This models
the HashMap that convert_to_raw_list builds by inserting (cs_id, idx) pairs
in order: a later insert for the same id overwrites an earlier one. -/
def lastIdxOf : List Nat → Nat → Option Nat
  | [], _ => none
  | x :: xs, c =>
    match lastIdxOf xs c with
    | some i => some (i + 1)
    | none => if x = c then some 0 else none

/-- The per-parent offset computation of convert_to_raw_list: a known parent
found in the index map becomes a relative offset, anything else becomes the
sentinel offset list.len() + 1 that points outside the list. -/
def parentOffset (fsts : List Nat) (maxIdx : Int) (j : Nat) : FastlogParent → Int
  | .known c =>
    match lastIdxOf fsts c with
    | some i => (i : Int) - (j : Int)
    | none => maxIdx
  | .unknown => maxIdx

/-- convert_to_raw_list (fastlog_impl.rs lines 131-161): external
representation to offset-encoded raw representation. -/
def convert_to_raw_list (list : List (Nat × List FastlogParent)) :
    List (Nat × List Int) :=
  let fsts := list.map Prod.fst
  let maxIdx : Int := (list.length : Int) + 1
  list.enum.map (fun e => (e.2.1, e.2.2.map (parentOffset fsts maxIdx e.1)))

/-- The per-offset resolution of flatten_raw_list: index + offset, looked up
in the same raw list; out-of-bounds (including negative) means Unknown. -/
def resolveOffset (raw : List (Nat × List Int)) (i : Nat) (off : Int) : FastlogParent :=
  let parentIndex : Int := (i : Int) + off
  if 0 ≤ parentIndex then
    match raw.get? parentIndex.toNat with
    | some p => .known p.1
    | none => .unknown
  else .unknown

/-- flatten_raw_list (fastlog_impl.rs lines 210-234): raw offset-encoded
representation back to the external representation. -/
def flatten_raw_list (raw : List (Nat × List Int)) :
    List (Nat × List FastlogParent) :=
  raw.enum.map (fun e => (e.2.1, e.2.2.map (resolveOffset raw e.1)))

end Fastlog

namespace Graph

/-- Parents of a node in a graph given as an association list from node to
parent list; a node without an entry has no recorded parents. -/
def parentsOf (graph : List (Nat × List Nat)) (n : Nat) : List Nat :=
  match graph.find? (fun e => e.1 = n) with
  | some e => e.2
  | none => []

/-- Every node mentioned by the graph: the keys and all listed parents. -/
def allNodes (graph : List (Nat × List Nat)) : List Nat :=
  (graph.map Prod.fst ++ (graph.map Prod.snd).flatten).dedup

/-- A node is ready to be emitted when all its parents were emitted. -/
def readyPred (graph : List (Nat × List Nat)) (emitted : List Nat) (n : Nat) : Bool :=
  (parentsOf graph n).all (fun p => emitted.contains p)

/-- Kahn-style rounds: emit every pending node whose parents are all
emitted; if a round emits nothing while nodes remain, the graph is cyclic. -/
def topoLoop (graph : List (Nat × List Nat)) :
    Nat → List Nat → List Nat → Option (List Nat)
  | _, [], emitted => some emitted
  | 0, _ :: _, _ => none
  | fuel + 1, p :: pending, emitted =>
    let ready := (p :: pending).filter (readyPred graph emitted)
    if ready.isEmpty then none
    else
      topoLoop graph fuel ((p :: pending).filter (fun n => !readyPred graph emitted n))
        (emitted ++ ready)

/-- Modelled from the spec: sort_topological from the topo_sort crate is not
under src/.  Spec (section 5 and repo.rs comments): it sorts all nodes of a
node-to-parents map, parents before children, returning every mentioned node
(keys and non-key parents alike), and fails on a cyclic graph. -/
def sort_topological (graph : List (Nat × List Nat)) : Option (List Nat) :=
  topoLoop graph (allNodes graph).length (allNodes graph) []

end Graph

namespace Repo

/-- The order in which save_bonsai_changesets issues its sequential
changeset-table add calls (repo.rs lines 1862-1897): topologically sort the
map from batch changeset id to parents, then keep only ids that belong to
the batch; none models the panic on a cyclic batch. -/
def save_bonsai_changesets_order (batch : List (Nat × List Nat)) : Option (List Nat) :=
  (Graph.sort_topological batch).map
    (fun sorted => sorted.filter (fun cs => (batch.map Prod.fst).contains cs))

end Repo

namespace Derive

/-- Outcome of one try_add_put_lease call: the lease service answered with a
grant or refusal, or the lease service itself errored. -/
inductive LeaseTry where
  | ok (leased : Bool)
  | err
deriving DecidableEq

/-- A LeaseOps implementation whose every call errors (FailingLease). -/
def alwaysFailingLease : Nat → LeaseTry := fun _ => .err

/-- A LeaseOps implementation that always grants the lease at once. -/
def alwaysGrantedLease : Nat → LeaseTry := fun _ => .ok true

/-- Association-list lookup, first binding wins. -/
def alookup {V : Type} : List (Nat × V) → Nat → Option V
  | [], _ => none
  | e :: rest, c => if e.1 = c then some e.2 else alookup rest c

/-- State threaded through one derive_impl invocation: the underlying
mapping store, the per-chunk DeferredDerivedMapping write-back cache, the
number of try_add_put_lease calls, and the number of derive_from_parents
calls. -/
structure DeriveState (V : Type) where
  inner : List (Nat × V)
  cache : List (Nat × V)
  leaseCalls : Nat
  deriveCount : Nat
deriving DecidableEq

/-- DeferredDerivedMapping::get: the cache is consulted first, then the
underlying mapping. -/
def mget {V : Type} (st : DeriveState V) (cs : Nat) : Option V :=
  match alookup st.cache cs with
  | some v => some v
  | none => alookup st.inner cs

/-- The lease-acquire/poll/wait loop of derive_may_panic, entered with the
changeset content and the parent derived values already fetched.  A lease
error is treated as ignored = true: derivation proceeds without
deduplication.  Fuel bounds the wait-for-other-leases retries; none means
the loop never broke within the fuel. -/
def deriveLeaseLoop {V : Type} (D : Nat → List V → V) (lease : Nat → LeaseTry)
    (cs : Nat) (parentVals : List V) :
    Nat → DeriveState V → Option (DeriveState V)
  | 0, _ => none
  | fuel + 1, st =>
    let t := lease st.leaseCalls
    let st1 := { st with leaseCalls := st.leaseCalls + 1 }
    let leased := match t with | .ok b => b | .err => false
    let ignored := match t with | .ok _ => false | .err => true
    match mget st1 cs with
    | some _ => some st1
    | none =>
      if leased || ignored then
        some { st1 with
          cache := (cs, D cs parentVals) :: st1.cache,
          deriveCount := st1.deriveCount + 1 }
      else
        deriveLeaseLoop D lease cs parentVals fuel st1

/-- derive_may_panic (derive_impl.rs lines 210-353): fetch the parent
derived values through the deferred mapping (a missing parent value is an
invariant violation, modelled as none), then run the lease loop.  The
release_lease result is ignored by the source, so it does not appear. -/
def derive_may_panic {V : Type} (D : Nat → List V → V) (par : Nat → List Nat)
    (lease : Nat → LeaseTry) (cs : Nat) (fuel : Nat) (st : DeriveState V) :
    Option (DeriveState V) :=
  match (par cs).mapM (mget st) with
  | none => none
  | some parentVals => deriveLeaseLoop D lease cs parentVals fuel st

/-- The discovery phase of derive_impl (lines 84-115): breadth-first walk
backwards from the start changeset, stopping at any changeset that already
has a mapping entry, deduplicating parents through a visited list, and
collecting changeset-to-parents pairs for everything not yet derived.  Fuel
bounds the walk; none means the walk did not finish within the fuel. -/
def discoverLoop {V : Type} (inner : List (Nat × V)) (par : Nat → List Nat) :
    Nat → List Nat → List Nat → List (Nat × List Nat) →
    Option (List (Nat × List Nat))
  | 0, queue, _, acc => if queue.isEmpty then some acc else none
  | _ + 1, [], _, acc => some acc
  | fuel + 1, cs :: queue, visited, acc =>
    match alookup inner cs with
    | some _ => discoverLoop inner par fuel queue visited acc
    | none =>
      let ps := par cs
      let newPs := ps.filter (fun p => !visited.contains p)
      discoverLoop inner par fuel (queue ++ newPs) (visited ++ newPs) (acc ++ [(cs, ps)])

/-- Accumulator recursion behind toChunks: cur holds the current chunk in
reverse order. -/
def toChunksAux {α : Type} (n : Nat) : List α → List α → List (List α)
  | [], cur => if cur.isEmpty then [] else [cur.reverse]
  | a :: rest, cur =>
    if n ≤ cur.length + 1 then (a :: cur).reverse :: toChunksAux n rest []
    else toChunksAux n rest (a :: cur)

/-- Split a list into chunks of at most n elements (stream chunks(100)). -/
def toChunks {α : Type} (n : Nat) (l : List α) : List (List α) :=
  toChunksAux n l []

/-- DeferredDerivedMapping::persist: flush the write-back cache into the
underlying mapping and clear the cache. -/
def persist {V : Type} (st : DeriveState V) : DeriveState V :=
  { st with inner := st.cache ++ st.inner, cache := [] }

/-- Derive every changeset of one chunk in order through the shared
write-back cache. -/
def deriveChunkItems {V : Type} (D : Nat → List V → V) (par : Nat → List Nat)
    (lease : Nat → LeaseTry) (fuelLease : Nat) :
    List Nat → DeriveState V → Option (DeriveState V)
  | [], st => some st
  | cs :: rest, st =>
    match derive_may_panic D par lease cs fuelLease st with
    | none => none
    | some st2 => deriveChunkItems D par lease fuelLease rest st2

/-- The chunked fold of derive_impl: each chunk gets a fresh
DeferredDerivedMapping cache, is derived sequentially, and is persisted
before the next chunk starts. -/
def deriveChunks {V : Type} (D : Nat → List V → V) (par : Nat → List Nat)
    (lease : Nat → LeaseTry) (fuelLease : Nat) :
    List (List Nat) → DeriveState V → Option (DeriveState V)
  | [], st => some st
  | chunk :: rest, st =>
    match deriveChunkItems D par lease fuelLease chunk { st with cache := [] } with
    | none => none
    | some st2 => deriveChunks D par lease fuelLease rest (persist st2)

/-- derive_impl (derive_impl.rs lines 69-207): discovery, topological sort
filtered back to the not-yet-derived set, chunked derivation, then a final
fetch of the start changeset from the underlying mapping.  Returns the final
mapping store, the number of derive_from_parents calls, and the derived
value; none models a panic or exhausted fuel. -/
def derive_impl {V : Type} (D : Nat → List V → V) (par : Nat → List Nat)
    (lease : Nat → LeaseTry) (fuelBfs fuelLease : Nat)
    (inner0 : List (Nat × V)) (start : Nat) :
    Option (List (Nat × V) × Nat × V) :=
  match discoverLoop inner0 par fuelBfs [start] [] [] with
  | none => none
  | some notDerived =>
    match Graph.sort_topological notDerived with
    | none => none
    | some sorted =>
      let order := sorted.filter (fun cs => (notDerived.map Prod.fst).contains cs)
      let st0 : DeriveState V :=
        { inner := inner0, cache := [], leaseCalls := 0, deriveCount := 0 }
      match deriveChunks D par lease fuelLease (toChunks 100 order) st0 with
      | none => none
      | some stF =>
        match alookup stF.inner start with
        | none => none
        | some v => some (stF.inner, stF.deriveCount, v)

/-- take_hg_generation_lease (repo.rs lines 1449-1496): a lease error is
mapped by or_else to leased = false; a non-leased caller that finds no
bonsai-hg mapping entry waits for other leases and retries.  Returns the
loop result (an existing hg id, or none meaning the lease is held and
generation should proceed) together with the updated lease call counter;
the outer none means the retry loop never broke within the fuel. -/
def take_hg_generation_lease (lease : Nat → LeaseTry)
    (bonsaiHgRows : List (Nat × Nat)) (bcsId : Nat) :
    Nat → Nat → Option (Option Nat × Nat)
  | 0, _ => none
  | fuel + 1, leaseCalls =>
    let t := lease leaseCalls
    let leased := match t with | .ok b => b | .err => false
    let maybeHg := alookup bonsaiHgRows bcsId
    if leased then
      some (maybeHg, leaseCalls + 1)
    else
      match maybeHg with
      | some hg => some (some hg, leaseCalls + 1)
      | none => take_hg_generation_lease lease bonsaiHgRows bcsId fuel (leaseCalls + 1)

end Derive

namespace Create

/-- The durable tables and the can_be_parent oneshot channel touched by one
CreateChangeset::create run. -/
structure RepoState where
  blobs : List Nat
  bonsaiHgRows : List (Nat × Nat)
  changesetRows : List (Nat × List Nat)
  canBeParent : Option (Except Unit (Nat × Nat))
deriving DecidableEq

/-- The typed error of the hash verification step. -/
inductive CreateError where
  | inconsistentChangesetHash (expected actual : Nat)
deriving DecidableEq

/-- The success path after hash verification: signal can_be_parent, save the
hg changeset blob and the bonsai changeset blob, insert the bonsai-hg
mapping row, then insert the changeset graph row. -/
def finishCreate (csId bcsId : Nat) (parents : List Nat) (st : RepoState) :
    RepoState × Except CreateError Unit :=
  let st2 := { st with canBeParent := some (.ok (bcsId, csId)) }
  let st3 := { st2 with blobs := st2.blobs ++ [csId, bcsId] }
  let st4 := { st3 with bonsaiHgRows := st3.bonsaiHgRows ++ [(bcsId, csId)] }
  let st5 := { st4 with changesetRows := st4.changesetRows ++ [(bcsId, parents)] }
  (st5, .ok ())

/-- CreateChangeset::create (repo.rs lines 1916-2215), restricted to the
steps the hash-verification claim turns on: manifest sub-entries are
uploaded first, then the computed hg changeset hash is compared against the
caller-supplied expected node id; a mismatch aborts with the typed
InconsistentChangesetHash error and poisons can_be_parent (inspect_err),
and only a verified changeset reaches the mapping and graph-table inserts. -/
def create_changeset (expectedNodeid : Option Nat) (csId bcsId : Nat)
    (parents : List Nat) (entryBlobs : List Nat) (st : RepoState) :
    RepoState × Except CreateError Unit :=
  let st1 := { st with blobs := st.blobs ++ entryBlobs }
  match expectedNodeid with
  | some expected =>
    if csId ≠ expected then
      ({ st1 with canBeParent := some (.error ()) },
       .error (.inconsistentChangesetHash expected csId))
    else finishCreate csId bcsId parents st1
  | none => finishCreate csId bcsId parents st1

end Create

/-!
Theorems.  Helper lemmas come first, then one theorem per claim (with its
witness or counterexample where applicable).
-/

namespace Multiplex

theorem getLoop_no_found {V : Type} (n : Nat) (s : Bool) :
    ∀ (results : List (Nat × BResult V)) (errs : List Nat),
      (∀ r ∈ results, !r.2.isFound) →
      getLoop n s results errs = (getFinish n (errs ++ errorIds results), []) := by
  intro results
  induction results with
  | nil => intro errs _; simp [getLoop, errorIds]
  | cons r rest ih =>
    intro errs h
    obtain ⟨i, b⟩ := r
    have hb := h (i, b) (List.mem_cons_self _ _)
    cases b with
    | found v => simp [BResult.isFound] at hb
    | missing =>
      have hrec := ih errs (fun q hq => h q (List.mem_cons_of_mem _ hq))
      simpa [getLoop, errorIds] using hrec
    | failed =>
      have hrec := ih (errs ++ [i]) (fun q hq => h q (List.mem_cons_of_mem _ hq))
      simp only [getLoop, errorIds, List.filterMap_cons] at hrec ⊢
      rw [hrec, List.append_assoc]
      rfl

theorem getLoop_break {V : Type} (n : Nat) (s : Bool) :
    ∀ (pre rest : List (Nat × BResult V)) (i : Nat) (v : V) (errs : List Nat),
      (∀ r ∈ pre, !r.2.isFound) →
      getLoop n s (pre ++ (i, .found v) :: rest) errs
        = (.ok (some v), if s then rest else []) := by
  intro pre
  induction pre with
  | nil => intro rest i v errs _; rfl
  | cons r pre2 ih =>
    intro rest i v errs h
    obtain ⟨j, b⟩ := r
    have hb := h (j, b) (List.mem_cons_self _ _)
    cases b with
    | found w => simp [BResult.isFound] at hb
    | missing =>
      simpa [getLoop] using ih rest i v errs (fun q hq => h q (List.mem_cons_of_mem _ hq))
    | failed =>
      simpa [getLoop] using
        ih rest i v (errs ++ [j]) (fun q hq => h q (List.mem_cons_of_mem _ hq))

theorem errorIds_nil_of_all_missing {V : Type} (results : List (Nat × BResult V))
    (h : ∀ r ∈ results, r.2 = BResult.missing) : errorIds results = [] := by
  induction results with
  | nil => rfl
  | cons r rest ih =>
    have hr := h r (List.mem_cons_self _ _)
    have hrest := ih (fun q hq => h q (List.mem_cons_of_mem _ hq))
    obtain ⟨i, b⟩ := r
    cases b with
    | found v => simp at hr
    | missing => simpa [errorIds, List.filterMap_cons] using hrest
    | failed => simp at hr

theorem errorIds_length_lt {V : Type} (results : List (Nat × BResult V)) (i : Nat)
    (h : (i, BResult.missing) ∈ results) :
    (errorIds results).length < results.length := by
  induction results with
  | nil => cases h
  | cons r rest ih =>
    rcases List.mem_cons.mp h with h1 | h2
    · subst h1
      simp only [errorIds, List.filterMap_cons, List.length_cons]
      exact Nat.lt_succ_of_le (List.length_filterMap_le _ _)
    · obtain ⟨j, b⟩ := r
      cases b with
      | found v =>
        simp only [errorIds, List.filterMap_cons, List.length_cons]
        exact Nat.lt_succ_of_lt (ih h2)
      | missing =>
        simp only [errorIds, List.filterMap_cons, List.length_cons]
        exact Nat.lt_succ_of_lt (ih h2)
      | failed =>
        simp only [errorIds, List.filterMap_cons, List.length_cons]
        exact Nat.succ_lt_succ (ih h2)

theorem errorIds_length_eq {V : Type} (results : List (Nat × BResult V))
    (h : ∀ r ∈ results, r.2 = BResult.failed) :
    (errorIds results).length = results.length := by
  induction results with
  | nil => rfl
  | cons r rest ih =>
    have hr := h r (List.mem_cons_self _ _)
    have hrest := ih (fun q hq => h q (List.mem_cons_of_mem _ hq))
    obtain ⟨j, b⟩ := r
    cases b with
    | found v => simp at hr
    | missing => simp at hr
    | failed => simpa [errorIds, List.filterMap_cons] using hrest

theorem mem_errorIds {V : Type} (results : List (Nat × BResult V)) (i : Nat)
    (h : (i, BResult.failed) ∈ results) : i ∈ errorIds results := by
  rw [errorIds, List.mem_filterMap]
  exact ⟨(i, BResult.failed), h, rfl⟩

theorem getLoop_found {V : Type} (n : Nat) (s : Bool) :
    ∀ (results : List (Nat × BResult V)) (errs : List Nat) (i : Nat) (v : V),
      (i, BResult.found v) ∈ results →
      (∀ r ∈ results, r.2.isFound → r.2 = BResult.found v) →
      (getLoop n s results errs).1 = .ok (some v) := by
  intro results
  induction results with
  | nil => intro errs i v hmem _; cases hmem
  | cons r rest ih =>
    intro errs i v hmem hall
    obtain ⟨j, b⟩ := r
    cases b with
    | found w =>
      have hw := hall (j, BResult.found w) (List.mem_cons_self _ _) (by simp [BResult.isFound])
      simp only [BResult.found.injEq] at hw
      simp [getLoop, hw]
    | missing =>
      have hrest : (i, BResult.found v) ∈ rest := by
        rcases List.mem_cons.mp hmem with h1 | h2
        · exact absurd h1 (by simp)
        · exact h2
      simpa [getLoop] using
        ih errs i v hrest (fun q hq => hall q (List.mem_cons_of_mem _ hq))
    | failed =>
      have hrest : (i, BResult.found v) ∈ rest := by
        rcases List.mem_cons.mp hmem with h1 | h2
        · exact absurd h1 (by simp)
        · exact h2
      simpa [getLoop] using
        ih (errs ++ [j]) i v hrest (fun q hq => hall q (List.mem_cons_of_mem _ hq))

/-- C2: multiplexed get over the backend responses, listed in completion
order: if a backend holds the value (and the values held agree), get
returns it regardless of other failures; all None with zero errors gives
None; a mix of None and errors gives the SomeFailedOthersNone aggregate
error; all errors give the AllFailed aggregate error. -/
theorem multiplexed_get_classification {V : Type} :
    (∀ (s : Bool) (results : List (Nat × BResult V)) (i : Nat) (v : V),
      (i, BResult.found v) ∈ results →
      (∀ r ∈ results, r.2.isFound → r.2 = BResult.found v) →
      (multiplexed_get s results).1 = .ok (some v))
    ∧ (∀ (s : Bool) (results : List (Nat × BResult V)),
      (∀ r ∈ results, r.2 = BResult.missing) →
      (multiplexed_get s results).1 = .ok none)
    ∧ (∀ (s : Bool) (results : List (Nat × BResult V)) (i j : Nat),
      (∀ r ∈ results, !r.2.isFound) →
      (i, BResult.missing) ∈ results →
      (j, BResult.failed) ∈ results →
      (multiplexed_get s results).1
        = .error (.someFailedOthersNone (errorIds results)))
    ∧ (∀ (s : Bool) (results : List (Nat × BResult V)),
      results ≠ [] →
      (∀ r ∈ results, r.2 = BResult.failed) →
      (multiplexed_get s results).1
        = .error (.allFailed (errorIds results))) := by
  refine ⟨?_, ?_, ?_, ?_⟩
  · intro s results i v hmem hall
    exact getLoop_found results.length s results [] i v hmem hall
  · intro s results hmiss
    have hnf : ∀ r ∈ results, !r.2.isFound := by
      intro r hr; rw [hmiss r hr]; rfl
    rw [multiplexed_get, getLoop_no_found results.length s results [] hnf]
    simp [getFinish, errorIds_nil_of_all_missing results hmiss]
  · intro s results i j hnf hmiss hfail
    rw [multiplexed_get, getLoop_no_found results.length s results [] hnf]
    have hne : errorIds results ≠ [] :=
      List.ne_nil_of_mem (mem_errorIds results j hfail)
    have hlt := errorIds_length_lt results i hmiss
    simp [getFinish, hne, Nat.ne_of_lt hlt]
  · intro s results hne hfail
    have hnf : ∀ r ∈ results, !r.2.isFound := by
      intro r hr; rw [hfail r hr]; rfl
    rw [multiplexed_get, getLoop_no_found results.length s results [] hnf]
    have hlen := errorIds_length_eq results hfail
    have hne2 : errorIds results ≠ [] := by
      intro hcon
      rw [hcon] at hlen
      exact hne (List.eq_nil_of_length_eq_zero hlen.symm)
    simp [getFinish, hne2, hlen]

/-- C2 witness: the classification applied to concrete two-backend
response lists. -/
theorem multiplexed_get_classification_witness :
    (Multiplex.multiplexed_get (V := Nat) true [(0, .missing), (1, .found 7)]).1
        = .ok (some 7)
    ∧ (Multiplex.multiplexed_get (V := Nat) true [(0, .missing), (1, .missing)]).1
        = .ok none
    ∧ (Multiplex.multiplexed_get (V := Nat) true [(0, .failed), (1, .missing)]).1
        = .error (.someFailedOthersNone [0])
    ∧ (Multiplex.multiplexed_get (V := Nat) true [(0, .failed), (1, .failed)]).1
        = .error (.allFailed [0, 1]) := by
  refine ⟨?_, ?_, ?_, ?_⟩
  · exact multiplexed_get_classification.1 true _ 1 7 (by decide) (by decide)
  · exact multiplexed_get_classification.2.1 true _ (by decide)
  · exact multiplexed_get_classification.2.2.1 true _ 1 0 (by decide) (by decide) (by decide)
  · exact multiplexed_get_classification.2.2.2 true _ (by decide) (by decide)

end Multiplex

namespace Multiplex

theorem foundValues_nil_of_no_found {V : Type} (results : List (Nat × BResult V))
    (h : ∀ r ∈ results, !r.2.isFound) : foundValues results = [] := by
  induction results with
  | nil => rfl
  | cons r rest ih =>
    have hr := h r (List.mem_cons_self _ _)
    have hrest := ih (fun q hq => h q (List.mem_cons_of_mem _ hq))
    obtain ⟨i, b⟩ := r
    cases b with
    | found v => simp [BResult.isFound] at hr
    | missing => simpa [foundValues, List.filterMap_cons] using hrest
    | failed => simpa [foundValues, List.filterMap_cons] using hrest

/-- C9 counterexample: an unsampled get that returns early because backend 0
held the value drops the still-pending request of backend 1 instead of
driving it to completion: the spawned background list is empty. -/
theorem multiplexed_get_drop_counterexample :
    (multiplexed_get (V := Nat) false [(0, .found 5), (1, .missing)]).1 = .ok (some 5)
    ∧ (multiplexed_get (V := Nat) false [(0, .found 5), (1, .missing)]).2 = [] := by
  constructor
  · rfl
  · rfl

/-- C9 (amended): when a multiplexed get returns early because a backend
returned the value, the remaining in-flight requests are spawned and driven
to completion exactly when the get was sampled for logging; an unsampled
get drops them. -/
theorem multiplexed_get_background_drain {V : Type} :
    ∀ (s : Bool) (pre rest : List (Nat × BResult V)) (i : Nat) (v : V),
      (∀ r ∈ pre, !r.2.isFound) →
      multiplexed_get s (pre ++ (i, .found v) :: rest)
        = (.ok (some v), if s then rest else []) := by
  intro s pre rest i v hpre
  exact getLoop_break _ s pre rest i v [] hpre

/-- C9 witness: a sampled get with one missing backend before the hit and
one failed backend still in flight spawns exactly the in-flight request. -/
theorem multiplexed_get_background_drain_witness :
    multiplexed_get (V := Nat) true [(0, .missing), (1, .found 5), (2, .failed)]
      = (.ok (some 5), [(2, .failed)]) :=
  multiplexed_get_background_drain true [(0, .missing)] [(2, .failed)] 1 5 (by decide)

/-- C10: when every backend succeeds but none holds the key, scrub_get
returns a SomeFailedOthersNone error with an empty per-backend error map,
while the base multiplexed get returns a successful None in the same
situation: scrub_get never returns a successful None. -/
theorem scrub_get_all_none_vs_get {V : Type} [DecidableEq V] :
    ∀ (s : Bool) (results : List (Nat × BResult V)),
      results ≠ [] →
      (∀ r ∈ results, r.2 = BResult.missing) →
      scrub_get results = .error (.someFailedOthersNone [])
      ∧ (multiplexed_get s results).1 = .ok none := by
  intro s results hne hmiss
  have hnf : ∀ r ∈ results, !r.2.isFound := by
    intro r hr; rw [hmiss r hr]; rfl
  have herr : errorIds results = [] := errorIds_nil_of_all_missing results hmiss
  constructor
  · have hfilter : results.filter (fun r => !r.2.isFailed) = results := by
      rw [List.filter_eq_self]
      intro r hr; rw [hmiss r hr]; rfl
    have hfv : foundValues results = [] := foundValues_nil_of_no_found results hnf
    simp [scrub_get, hfilter, hfv, herr, allSame, List.isEmpty_iff, hne]
  · rw [multiplexed_get, getLoop_no_found results.length s results [] hnf]
    simp [getFinish, herr]

/-- C10 witness: two backends, both successfully reporting the key absent. -/
theorem scrub_get_all_none_vs_get_witness :
    scrub_get (V := Nat) [(0, .missing), (1, .missing)]
      = .error (.someFailedOthersNone [])
    ∧ (multiplexed_get (V := Nat) true [(0, .missing), (1, .missing)]).1 = .ok none :=
  scrub_get_all_none_vs_get true [(0, .missing), (1, .missing)] (by decide) (by decide)

end Multiplex

namespace Multiplex

theorem mem_missingIds {V : Type} (results : List (Nat × BResult V)) (i : Nat)
    (h : (i, BResult.missing) ∈ results) : i ∈ missingIds results := by
  rw [missingIds, List.mem_filterMap]
  exact ⟨(i, BResult.missing), h, rfl⟩

theorem mem_foundValues {V : Type} (results : List (Nat × BResult V)) (i : Nat) (v : V)
    (h : (i, BResult.found v) ∈ results) : v ∈ foundValues results := by
  rw [foundValues, List.mem_filterMap]
  exact ⟨(i, BResult.found v), h, rfl⟩

theorem exists_of_mem_foundValues {V : Type} (results : List (Nat × BResult V)) (v : V)
    (h : v ∈ foundValues results) : ∃ i, (i, BResult.found v) ∈ results := by
  rw [foundValues, List.mem_filterMap] at h
  obtain ⟨⟨i, b⟩, hmem, heq⟩ := h
  cases b with
  | found w => simp only [Option.some.injEq] at heq; exact ⟨i, heq ▸ hmem⟩
  | missing => cases heq
  | failed => cases heq

theorem successes_isEmpty_false_of_found {V : Type} (results : List (Nat × BResult V))
    (v : V) (h : v ∈ foundValues results) :
    (results.filter (fun r => !r.2.isFailed)).isEmpty = false := by
  obtain ⟨i, hmem⟩ := exists_of_mem_foundValues results v h
  have : (i, BResult.found v) ∈ results.filter (fun r => !r.2.isFailed) :=
    List.mem_filter.mpr ⟨hmem, rfl⟩
  rcases hfe : results.filter (fun r => !r.2.isFailed) with _ | _
  · rw [hfe] at this; cases this
  · rw [hfe]; rfl

theorem allSame_mem_eq {V : Type} [DecidableEq V] (l : List V)
    (h : allSame l = true) (x y : V) (hx : x ∈ l) (hy : y ∈ l) : x = y := by
  cases l with
  | nil => cases hx
  | cons u rest =>
    have hall : ∀ w ∈ rest, w = u := by
      intro w hw
      have := (List.all_eq_true.mp h) w hw
      exact of_decide_eq_true this
    have hxu : x = u := by
      rcases List.mem_cons.mp hx with h1 | h2
      · exact h1
      · exact hall x h2
    have hyu : y = u := by
      rcases List.mem_cons.mp hy with h1 | h2
      · exact h1
      · exact hall y h2
    rw [hxu, hyu]

theorem allSame_of_forall {V : Type} [DecidableEq V] (l : List V) (v : V)
    (h : ∀ w ∈ l, w = v) : allSame l = true := by
  cases l with
  | nil => rfl
  | cons u rest =>
    have hu : u = v := h u (List.mem_cons_self _ _)
    rw [allSame, List.all_eq_true]
    intro w hw
    have hw2 : w = v := h w (List.mem_cons_of_mem _ hw)
    exact decide_eq_true (by rw [hw2, hu])

theorem head_foundValues_of_forall {V : Type} (results : List (Nat × BResult V)) (v : V)
    (hmem : v ∈ foundValues results) (hall : ∀ w ∈ foundValues results, w = v) :
    (foundValues results).head? = some v := by
  rcases hfv : foundValues results with _ | ⟨u, rest⟩
  · rw [hfv] at hmem; cases hmem
  · have : u = v := hall u (by rw [hfv]; exact List.mem_cons_self _ _)
    rw [List.head?, this]

/-- C7 counterexample: a scrub get over one errored backend and one backend
holding the value returns the value, although not all backends returned the
same non-missing value: the (all_same, present, none-missing) arm of
scrub_get never consults the errored backends. -/
theorem scrub_get_only_when_counterexample :
    scrub_get (V := Nat) [(0, .failed), (1, .found 7)] = .ok (some 7)
    ∧ ¬ (∀ r ∈ ([(0, .failed), (1, .found 7)] : List (Nat × BResult Nat)),
          r.2 = BResult.found 7) := by
  constructor
  · rfl
  · decide

/-- C7 (amended): scrub get classification: two differing present values
give a ValueMismatch error; agreeing present values with some backends
missing the key give a SomeMissingItem error carrying the agreed value; all
backends erroring gives an AllFailed error; and scrub returns a value v
exactly when some backend returns v, every backend that returns a value
returns v, and no backend successfully reports the key missing — backends
that errored are ignored by the value-returning arm. -/
theorem scrub_get_classification {V : Type} [DecidableEq V] :
    (∀ (results : List (Nat × BResult V)) (v w : V),
      v ∈ foundValues results → w ∈ foundValues results → v ≠ w →
      scrub_get results
        = .error (.valueMismatch (answeredIds results) (missingIds results)))
    ∧ (∀ (results : List (Nat × BResult V)) (v : V),
      v ∈ foundValues results →
      (∀ w ∈ foundValues results, w = v) →
      missingIds results ≠ [] →
      scrub_get results = .error (.someMissingItem (missingIds results) (some v)))
    ∧ (∀ (results : List (Nat × BResult V)),
      results ≠ [] →
      (∀ r ∈ results, r.2 = BResult.failed) →
      scrub_get results = .error (.allFailed (errorIds results)))
    ∧ (∀ (results : List (Nat × BResult V)) (v : V),
      scrub_get results = .ok (some v) ↔
        (v ∈ foundValues results ∧ (∀ w ∈ foundValues results, w = v)
          ∧ missingIds results = [])) := by
  refine ⟨?_, ?_, ?_, ?_⟩
  · intro results v w hv hw hne
    have hemp := successes_isEmpty_false_of_found results v hv
    have hAS : allSame (foundValues results) = false := by
      rcases hAS : allSame (foundValues results) with _ | _
      · rfl
      · exact absurd (allSame_mem_eq _ hAS v w hv hw) hne
    simp [scrub_get, hemp, hAS]
  · intro results v hv hall hmi
    have hemp := successes_isEmpty_false_of_found results v hv
    have hAS := allSame_of_forall (foundValues results) v hall
    have hh := head_foundValues_of_forall results v hv hall
    simp [scrub_get, hemp, hAS, hh, hmi]
  · intro results hne hfail
    have hemp : (results.filter (fun r => !r.2.isFailed)).isEmpty = true := by
      have : results.filter (fun r => !r.2.isFailed) = [] := by
        rw [List.filter_eq_nil_iff]
        intro r hr
        rw [hfail r hr]
        simp [BResult.isFailed]
      rw [this]; rfl
    simp [scrub_get, hemp]
  · intro results v
    constructor
    · intro h
      rw [scrub_get] at h
      split at h
      · cases h
      · rename_i hempty
        split at h
        · cases h
        · rename_i hAS
          split at h
          · cases h
          · rename_i u hh
            split at h
            · rename_i hmi
              have hASt : allSame (foundValues results) = true := by
                rcases hx : allSame (foundValues results) with _ | _
                · simp [hx] at hAS
                · rfl
              simp only [Except.ok.injEq, Option.some.injEq] at h
              subst h
              refine ⟨List.mem_of_mem_head? hh, ?_, hmi⟩
              intro w hw
              exact allSame_mem_eq (foundValues results) hASt w u hw
                (List.mem_of_mem_head? hh)
            · cases h
    · rintro ⟨hv, hall, hmi⟩
      have hemp := successes_isEmpty_false_of_found results v hv
      have hAS := allSame_of_forall (foundValues results) v hall
      have hh := head_foundValues_of_forall results v hv hall
      simp [scrub_get, hemp, hAS, hh, hmi]

/-- C7 witness: the scrub classification applied to concrete two-backend
outcome lists, including the value-returning arm both with all backends
agreeing and with one backend errored. -/
theorem scrub_get_classification_witness :
    scrub_get (V := Nat) [(0, .found 7), (1, .found 8)]
      = .error (.valueMismatch [0, 1] [])
    ∧ scrub_get (V := Nat) [(0, .found 7), (1, .missing)]
      = .error (.someMissingItem [1] (some 7))
    ∧ scrub_get (V := Nat) [(0, .failed), (1, .failed)]
      = .error (.allFailed [0, 1])
    ∧ scrub_get (V := Nat) [(0, .found 7), (1, .found 7)] = .ok (some 7)
    ∧ scrub_get (V := Nat) [(0, .failed), (1, .found 7)] = .ok (some 7) := by
  refine ⟨?_, ?_, ?_, ?_, ?_⟩
  · exact scrub_get_classification.1 _ 7 8 (by decide) (by decide) (by decide)
  · exact scrub_get_classification.2.1 _ 7 (by decide) (by decide) (by decide)
  · exact scrub_get_classification.2.2.1 _ (by decide) (by decide)
  · exact (scrub_get_classification.2.2.2 _ 7).mpr ⟨by decide, by decide, by decide⟩
  · exact (scrub_get_classification.2.2.2 _ 7).mpr ⟨by decide, by decide, by decide⟩

end Multiplex

namespace Fastlog

theorem lastIdxOf_sound : ∀ (l : List Nat) (c i : Nat),
    lastIdxOf l c = some i → l.get? i = some c := by
  intro l
  induction l with
  | nil => intro c i h; cases h
  | cons x xs ih =>
    intro c i h
    rw [lastIdxOf] at h
    cases hx : lastIdxOf xs c with
    | some j =>
      rw [hx] at h
      simp only [Option.some.injEq] at h
      subst h
      simpa [List.get?] using ih c j hx
    | none =>
      rw [hx] at h
      by_cases hxc : x = c
      · rw [if_pos hxc] at h
        simp only [Option.some.injEq] at h
        subst h
        simp [List.get?, hxc]
      · simp [hxc] at h

theorem lastIdxOf_isSome : ∀ (l : List Nat) (c : Nat), c ∈ l →
    (lastIdxOf l c).isSome := by
  intro l
  induction l with
  | nil => intro c h; cases h
  | cons x xs ih =>
    intro c h
    rw [lastIdxOf]
    cases hx : lastIdxOf xs c with
    | some j => rfl
    | none =>
      rcases List.mem_cons.mp h with h1 | h2
      · simp [h1]
      · have := ih c h2
        rw [hx] at this
        cases this

theorem convert_length (list : List (Nat × List FastlogParent)) :
    (convert_to_raw_list list).length = list.length := by
  simp [convert_to_raw_list]

theorem convert_get? (list : List (Nat × List FastlogParent)) (j : Nat) :
    (convert_to_raw_list list).get? j
      = (list.get? j).map
          (fun e =>
            (e.1, e.2.map (parentOffset (list.map Prod.fst) ((list.length : Int) + 1) j))) := by
  rw [convert_to_raw_list]
  rw [List.get?_map, List.get?_enum]
  cases list.get? j <;> rfl

theorem flatten_get? (raw : List (Nat × List Int)) (j : Nat) :
    (flatten_raw_list raw).get? j
      = (raw.get? j).map (fun e => (e.1, e.2.map (resolveOffset raw j))) := by
  rw [flatten_raw_list]
  rw [List.get?_map, List.get?_enum]
  cases raw.get? j <;> rfl

theorem resolve_parentOffset (list : List (Nat × List FastlogParent)) (j : Nat)
    (p : FastlogParent)
    (hp : ∀ c, p = FastlogParent.known c → c ∈ list.map Prod.fst) :
    resolveOffset (convert_to_raw_list list) j
      (parentOffset (list.map Prod.fst) ((list.length : Int) + 1) j p) = p := by
  cases p with
  | unknown =>
    rw [parentOffset, resolveOffset]
    have hnonneg : (0 : Int) ≤ (j : Int) + ((list.length : Int) + 1) := by positivity
    rw [if_pos hnonneg]
    have htn : ((j : Int) + ((list.length : Int) + 1)).toNat = j + list.length + 1 := by
      omega
    rw [htn]
    have hnone : (convert_to_raw_list list).get? (j + list.length + 1) = none := by
      rw [List.get?_eq_none]
      rw [convert_length]
      omega
    rw [hnone]
  | known c =>
    have hc : c ∈ list.map Prod.fst := hp c rfl
    have hsome := lastIdxOf_isSome (list.map Prod.fst) c hc
    obtain ⟨i, hi⟩ := Option.isSome_iff_exists.mp hsome
    have hgot : (list.map Prod.fst).get? i = some c := lastIdxOf_sound _ c i hi
    have hlt : i < list.length := by
      have := List.get?_eq_some.mp hgot
      obtain ⟨hlen, _⟩ := this
      simpa using hlen
    rw [parentOffset, hi, resolveOffset]
    have hpi : (j : Int) + ((i : Int) - (j : Int)) = (i : Int) := by ring
    rw [hpi]
    rw [if_pos (by positivity)]
    have htn : ((i : Int)).toNat = i := rfl
    rw [htn]
    obtain ⟨e, he, hce⟩ : ∃ e, list.get? i = some e ∧ e.1 = c := by
      rw [List.get?_map] at hgot
      cases hgl : list.get? i with
      | none => rw [hgl] at hgot; cases hgot
      | some e =>
        rw [hgl] at hgot
        simp only [Option.map_some', Option.some.injEq] at hgot
        exact ⟨e, rfl, hgot⟩
    rw [convert_get?, he]
    simp [hce]

/-- C6 counterexample: a list containing a Known parent that is absent from
the list itself does not round trip: convert_to_raw_list encodes the absent
parent with the out-of-range sentinel offset, which flatten_raw_list decodes
as Unknown. -/
theorem fastlog_round_trip_counterexample :
    flatten_raw_list (convert_to_raw_list [(0, [.known 1])]) ≠ [(0, [.known 1])] := by
  decide

/-- C6 (amended): flatten_raw_list inverts convert_to_raw_list on every list
in which each Known parent occurs among the listed changeset ids; a Known
parent absent from the list comes back as Unknown. -/
theorem fastlog_round_trip (list : List (Nat × List FastlogParent))
    (hclosed : ∀ e ∈ list, ∀ c, FastlogParent.known c ∈ e.2 → c ∈ list.map Prod.fst) :
    flatten_raw_list (convert_to_raw_list list) = list := by
  apply List.ext_get?_iff.mpr
  intro j
  rw [flatten_get?, convert_get?]
  cases hj : list.get? j with
  | none => rfl
  | some e =>
    simp only [Option.map_some']
    congr 1
    obtain ⟨cs, ps⟩ := e
    simp only
    rw [List.map_map]
    have he : (cs, ps) ∈ list := List.get?_mem hj
    congr 1
    have : ∀ p ∈ ps,
        (resolveOffset (convert_to_raw_list list) j ∘
          parentOffset (list.map Prod.fst) ((list.length : Int) + 1) j) p = p := by
      intro p hp
      exact resolve_parentOffset list j p
        (fun c hpc => hclosed (cs, ps) he c (hpc ▸ hp))
    calc ps.map _ = ps.map id := List.map_congr_left this
    _ = ps := List.map_id ps

/-- C6 witness: the three-entry merge-shaped list from the source tests
round trips, every Known parent being present in the list. -/
theorem fastlog_round_trip_witness :
    flatten_raw_list (convert_to_raw_list
        [(1, [.known 2, .known 3]), (2, []), (3, [])])
      = [(1, [.known 2, .known 3]), (2, []), (3, [])] :=
  fastlog_round_trip [(1, [.known 2, .known 3]), (2, []), (3, [])] (by
    intro e he c hc
    fin_cases he <;> simp_all)

end Fastlog

namespace Create

/-- C3: when an explicit expected node id is supplied and differs from the
computed hg changeset hash, CreateChangeset::create fails with the typed
InconsistentChangesetHash error carrying the expected and actual hashes; no
changeset-graph-table row and no bonsai-hg mapping row is written (the
changesets add insert is never reached), the can_be_parent signal is
poisoned, and only the entry blobs uploaded before the check remain. -/
theorem create_changeset_hash_mismatch :
    ∀ (expected csId bcsId : Nat) (parents entryBlobs : List Nat) (st : RepoState),
      csId ≠ expected →
      (create_changeset (some expected) csId bcsId parents entryBlobs st).2
          = .error (.inconsistentChangesetHash expected csId)
      ∧ (create_changeset (some expected) csId bcsId parents entryBlobs st).1.changesetRows
          = st.changesetRows
      ∧ (create_changeset (some expected) csId bcsId parents entryBlobs st).1.bonsaiHgRows
          = st.bonsaiHgRows
      ∧ (create_changeset (some expected) csId bcsId parents entryBlobs st).1.canBeParent
          = some (.error ())
      ∧ (create_changeset (some expected) csId bcsId parents entryBlobs st).1.blobs
          = st.blobs ++ entryBlobs := by
  intro expected csId bcsId parents entryBlobs st hne
  refine ⟨?_, ?_, ?_, ?_, ?_⟩ <;> simp [create_changeset, hne]

/-- C3 witness: expected hash 10 against computed hash 11 on a repo with one
existing graph row. -/
theorem create_changeset_hash_mismatch_witness :
    (create_changeset (some 10) 11 5 [3] [7] ⟨[2], [(1, 2)], [(1, [])], none⟩).2
        = .error (.inconsistentChangesetHash 10 11)
    ∧ (create_changeset (some 10) 11 5 [3] [7] ⟨[2], [(1, 2)], [(1, [])], none⟩).1.changesetRows
        = [(1, [])]
    ∧ (create_changeset (some 10) 11 5 [3] [7] ⟨[2], [(1, 2)], [(1, [])], none⟩).1.bonsaiHgRows
        = [(1, 2)]
    ∧ (create_changeset (some 10) 11 5 [3] [7] ⟨[2], [(1, 2)], [(1, [])], none⟩).1.canBeParent
        = some (.error ())
    ∧ (create_changeset (some 10) 11 5 [3] [7] ⟨[2], [(1, 2)], [(1, [])], none⟩).1.blobs
        = [2] ++ [7] :=
  create_changeset_hash_mismatch 10 11 5 [3] [7] ⟨[2], [(1, 2)], [(1, [])], none⟩ (by decide)

end Create

namespace Graph

theorem topoLoop_sound (graph : List (Nat × List Nat)) :
    ∀ (fuel : Nat) (pending emitted order : List Nat),
      (∀ k x, emitted.get? k = some x → ∀ p ∈ parentsOf graph x, p ∈ emitted.take k) →
      topoLoop graph fuel pending emitted = some order →
      ∀ k x, order.get? k = some x → ∀ p ∈ parentsOf graph x, p ∈ order.take k := by
  intro fuel
  induction fuel with
  | zero =>
    intro pending emitted order hinv heq
    cases pending with
    | nil =>
      rw [topoLoop] at heq
      simp only [Option.some.injEq] at heq
      subst heq
      exact hinv
    | cons p rest => cases heq
  | succ fuel ih =>
    intro pending emitted order hinv heq
    cases pending with
    | nil =>
      rw [topoLoop] at heq
      simp only [Option.some.injEq] at heq
      subst heq
      exact hinv
    | cons p rest =>
      rw [topoLoop] at heq
      by_cases hre : ((p :: rest).filter (readyPred graph emitted)).isEmpty
      · rw [if_pos hre] at heq; cases heq
      · rw [if_neg hre] at heq
        apply ih _ _ order _ heq
        intro k x hget q hq
        have hready : ∀ y ∈ (p :: rest).filter (readyPred graph emitted),
            readyPred graph emitted y = true := by
          intro y hy
          exact List.of_mem_filter hy
        rcases Nat.lt_or_ge k emitted.length with hk | hk
        · rw [List.get?_append hk] at hget
          have hmem := hinv k x hget q hq
          rw [List.take_append_eq_append_take]
          exact List.mem_append_left _ hmem
        · rw [List.get?_append_right hk] at hget
          have hx : x ∈ (p :: rest).filter (readyPred graph emitted) :=
            List.get?_mem hget
          have hrp := hready x hx
          rw [readyPred, List.all_eq_true] at hrp
          have hqe : q ∈ emitted := by
            have := hrp q hq
            simpa using this
          rw [List.take_append_eq_append_take, List.take_all_of_le hk]
          exact List.mem_append_left _ hqe

theorem sort_topological_sound (graph : List (Nat × List Nat)) (order : List Nat)
    (h : sort_topological graph = some order) :
    ∀ k x, order.get? k = some x → ∀ p ∈ parentsOf graph x, p ∈ order.take k := by
  apply topoLoop_sound graph (allNodes graph).length (allNodes graph) [] order _ h
  intro k x hget
  cases k <;> cases hget

theorem filter_decomp {α : Type} (q : α → Bool) :
    ∀ (order pre2 post2 : List α) (x : α),
      order.filter q = pre2 ++ x :: post2 →
      ∃ pre post, order = pre ++ x :: post ∧ pre2 = pre.filter q := by
  intro order
  induction order with
  | nil =>
    intro pre2 post2 x h
    simp only [List.filter_nil] at h
    exact absurd h.symm (List.append_ne_nil_of_right_ne_nil _ (by simp))
  | cons a rest ih =>
    intro pre2 post2 x h
    by_cases hqa : q a
    · rw [List.filter_cons_of_pos hqa] at h
      cases pre2 with
      | nil =>
        simp only [List.nil_append, List.cons.injEq] at h
        exact ⟨[], rest, by rw [h.1]; rfl, by simp⟩
      | cons b pre2b =>
        simp only [List.cons_append, List.cons.injEq] at h
        obtain ⟨hba, hrest⟩ := h
        obtain ⟨pre, post, hsplit, hpre⟩ := ih pre2b post2 x hrest
        refine ⟨a :: pre, post, by rw [List.cons_append, hsplit], ?_⟩
        rw [List.filter_cons_of_pos hqa, hba, hpre]
    · rw [List.filter_cons_of_neg hqa] at h
      obtain ⟨pre, post, hsplit, hpre⟩ := ih pre2 post2 x h
      refine ⟨a :: pre, post, by rw [List.cons_append, hsplit], ?_⟩
      rw [List.filter_cons_of_neg hqa, hpre]

theorem sort_decomp_parents (graph : List (Nat × List Nat)) (order : List Nat)
    (h : sort_topological graph = some order) :
    ∀ (pre post : List Nat) (x : Nat), order = pre ++ x :: post →
      ∀ p ∈ parentsOf graph x, p ∈ pre := by
  intro pre post x hsplit p hp
  have hget : order.get? pre.length = some x := by
    rw [hsplit, List.get?_append_right (Nat.le_refl _)]
    simp
  have htake : order.take pre.length = pre := by
    rw [hsplit]
    exact List.take_left pre (x :: post)
  have := sort_topological_sound graph order h pre.length x hget p hp
  rwa [htake] at this

end Graph

namespace Repo

/-- C8: for every batch handed to save_bonsai_changesets, the sequential
changeset-table add calls happen in an order in which every in-batch parent
of a changeset is inserted before it, whatever the order of the input
list. -/
theorem save_bonsai_changesets_parents_first :
    ∀ (batch : List (Nat × List Nat)) (order : List Nat),
      save_bonsai_changesets_order batch = some order →
      ∀ (pre post : List Nat) (x : Nat), order = pre ++ x :: post →
        ∀ p ∈ Graph.parentsOf batch x, (batch.map Prod.fst).contains p → p ∈ pre := by
  intro batch order h pre post x hsplit p hp hkeep
  rw [save_bonsai_changesets_order] at h
  cases hs : Graph.sort_topological batch with
  | none => rw [hs] at h; cases h
  | some sorted =>
    rw [hs] at h
    simp only [Option.map_some', Option.some.injEq] at h
    subst h
    obtain ⟨pre0, post0, hsplit0, hpre0⟩ :=
      Graph.filter_decomp _ sorted pre post x hsplit
    have hmem := Graph.sort_decomp_parents batch sorted hs pre0 post0 x hsplit0 p hp
    rw [hpre0]
    exact List.mem_filter.mpr ⟨hmem, hkeep⟩

/-- C8 witness: inserting the batch listed as child before parent, the
parent 1 still precedes the child 2 in the insert order [1, 2]. -/
theorem save_bonsai_changesets_parents_first_witness :
    save_bonsai_changesets_order [(2, [1]), (1, [])] = some [1, 2]
    ∧ (1 : Nat) ∈ ([1] : List Nat) :=
  ⟨by decide,
    save_bonsai_changesets_parents_first [(2, [1]), (1, [])] [1, 2] (by decide)
      [1] [] 2 (by decide) 1 (by decide) (by decide)⟩

end Repo

namespace Multiplex

theorem minOk_none : ∀ (l : List PutAttempt), minOk l = none →
    ∀ a ∈ l, a.putOk = false := by
  intro l
  induction l with
  | nil => intro _ a ha; cases ha
  | cons a rest ih =>
    intro h b hb
    cases hm : minOk rest with
    | some c =>
      simp only [minOk, hm] at h
      by_cases hc : (a.putOk && decide (a.time ≤ c.time)) = true
      · rw [if_pos hc] at h; cases h
      · rw [if_neg hc] at h; cases h
    | none =>
      simp only [minOk, hm] at h
      by_cases hp : a.putOk = true
      · rw [if_pos hp] at h; cases h
      · rcases List.mem_cons.mp hb with h1 | h2
        · rw [h1]; exact Bool.eq_false_iff.mpr hp
        · exact ih hm b h2

theorem minOk_spec : ∀ (l : List PutAttempt) (w : PutAttempt), minOk l = some w →
    w ∈ l ∧ w.putOk = true ∧ ∀ a ∈ l, a.putOk = true → w.time ≤ a.time := by
  intro l
  induction l with
  | nil => intro w h; cases h
  | cons a rest ih =>
    intro w h
    cases hm : minOk rest with
    | none =>
      simp only [minOk, hm] at h
      by_cases hp : a.putOk = true
      · rw [if_pos hp] at h
        simp only [Option.some.injEq] at h
        subst h
        refine ⟨List.mem_cons_self _ _, hp, ?_⟩
        intro x hx hxok
        rcases List.mem_cons.mp hx with h1 | h2
        · rw [h1]
        · exact absurd hxok (by rw [minOk_none rest hm x h2]; simp)
      · rw [if_neg hp] at h; cases h
    | some b =>
      simp only [minOk, hm] at h
      obtain ⟨hbmem, hbok, hbmin⟩ := ih b hm
      by_cases hc : (a.putOk && decide (a.time ≤ b.time)) = true
      · rw [if_pos hc] at h
        simp only [Option.some.injEq] at h
        subst h
        obtain ⟨hab, hle⟩ := (Bool.and_eq_true _ _).mp hc
        refine ⟨List.mem_cons_self _ _, hab, ?_⟩
        intro x hx hxok
        rcases List.mem_cons.mp hx with h1 | h2
        · rw [h1]
        · exact Nat.le_trans (of_decide_eq_true hle) (hbmin x h2 hxok)
      · rw [if_neg hc] at h
        simp only [Option.some.injEq] at h
        subst h
        refine ⟨List.mem_cons_of_mem _ hbmem, hbok, ?_⟩
        intro x hx hxok
        rcases List.mem_cons.mp hx with h1 | h2
        · subst h1
          have hnle : ¬ (x.time ≤ b.time) := by
            intro hle
            exact hc (by rw [hxok]; simpa using hle)
          exact Nat.le_of_lt (Nat.lt_of_not_le hnle)
        · exact hbmin x h2 hxok

end Multiplex

namespace Multiplex

theorem mem_laterThan (w : PutAttempt) (l : List PutAttempt) (a : PutAttempt) :
    a ∈ laterThan w l ↔ a ∈ l ∧ w.time < a.time := by
  rw [laterThan, List.mem_filter]
  simp

theorem laterThan_length_lt (w : PutAttempt) :
    ∀ (l : List PutAttempt), w ∈ l → (laterThan w l).length < l.length := by
  intro l
  induction l with
  | nil => intro h; cases h
  | cons a rest ih =>
    intro h
    rcases List.mem_cons.mp h with h1 | h2
    · subst h1
      rw [laterThan, List.filter_cons, if_neg (by simp)]
      exact Nat.lt_succ_of_le (List.length_filter_le _ _)
    · rw [laterThan, List.filter_cons]
      by_cases hc : decide (w.time < a.time) = true
      · rw [if_pos hc]
        simpa using Nat.succ_lt_succ (ih h2)
      · rw [if_neg hc]
        exact Nat.lt_succ_of_lt (ih h2)

theorem multiplexed_put_fuel_spec :
    ∀ (n : Nat) (l : List PutAttempt), l.length ≤ n →
      l.Pairwise (fun a b => a.time ≠ b.time) →
      (multiplexed_put_fuel n l = true ↔
        (∃ a ∈ l, a.putOk = true ∧ a.queueOk = true)
        ∨ (∃ a ∈ l, a.putOk = true ∧ ∀ b ∈ l, b.time ≤ a.time)) := by
  intro n
  induction n with
  | zero =>
    intro l hlen hpw
    have hnil : l = [] := List.eq_nil_of_length_eq_zero (Nat.le_zero.mp hlen)
    subst hnil
    simp [multiplexed_put_fuel]
  | succ n ih =>
    intro l hlen hpw
    cases hm : minOk l with
    | none =>
      have hall := minOk_none l hm
      simp only [multiplexed_put_fuel, hm]
      constructor
      · intro h; cases h
      · rintro (⟨a, ha, haok, _⟩ | ⟨a, ha, haok, _⟩) <;>
          (rw [hall a ha] at haok; cases haok)
    | some w =>
      obtain ⟨hwmem, hwok, hwmin⟩ := minOk_spec l w hm
      have hRsub : ∀ a, a ∈ laterThan w l → a ∈ l :=
        fun a ha => ((mem_laterThan w l a).mp ha).1
      have hRlt : ∀ a, a ∈ laterThan w l → w.time < a.time :=
        fun a ha => ((mem_laterThan w l a).mp ha).2
      have hRlen : (laterThan w l).length ≤ n :=
        Nat.lt_succ_iff.mp (Nat.lt_of_lt_of_le (laterThan_length_lt w l hwmem) hlen)
      have hRpw : (laterThan w l).Pairwise (fun a b => a.time ≠ b.time) :=
        List.Pairwise.sublist (List.filter_sublist _) hpw
      have hIH := ih (laterThan w l) hRlen hRpw
      have hsym : Symmetric (fun (a b : PutAttempt) => a.time ≠ b.time) :=
        fun x y hxy => hxy.symm
      have hmemR : ∀ a, a ∈ l → a.putOk = true → a ≠ w → a ∈ laterThan w l := by
        intro a ha haok hne
        have htne : a.time ≠ w.time := List.Pairwise.forall hsym hpw ha hwmem hne
        have hle := hwmin a ha haok
        exact (mem_laterThan w l a).mpr ⟨ha, Nat.lt_of_le_of_ne hle (Ne.symm htne)⟩
      simp only [multiplexed_put_fuel, hm, Bool.or_eq_true]
      constructor
      · rintro ((hq | hemp) | hrec)
        · exact Or.inl ⟨w, hwmem, hwok, hq⟩
        · have hRnil : laterThan w l = [] := List.isEmpty_iff.mp hemp
          refine Or.inr ⟨w, hwmem, hwok, ?_⟩
          intro b hb
          by_contra hlt
          have hbR : b ∈ laterThan w l :=
            (mem_laterThan w l b).mpr ⟨hb, Nat.lt_of_not_le hlt⟩
          rw [hRnil] at hbR
          cases hbR
        · rcases hIH.mp hrec with ⟨a, haR, hok, hqk⟩ | ⟨a, haR, hok, hmax⟩
          · exact Or.inl ⟨a, hRsub a haR, hok, hqk⟩
          · refine Or.inr ⟨a, hRsub a haR, hok, ?_⟩
            intro b hb
            by_cases hwb : w.time < b.time
            · exact hmax b ((mem_laterThan w l b).mpr ⟨hb, hwb⟩)
            · exact Nat.le_trans (Nat.le_of_not_lt hwb)
                (Nat.le_of_lt (hRlt a haR))
      · rintro (⟨a, ha, hok, hq⟩ | ⟨a, ha, hok, hmax⟩)
        · by_cases haw : a = w
          · subst haw
            exact Or.inl (Or.inl hq)
          · have haR := hmemR a ha hok haw
            exact Or.inr (hIH.mpr (Or.inl ⟨a, haR, hok, hq⟩))
        · by_cases haw : a = w
          · subst haw
            have hRnil : laterThan a l = [] := by
              rw [laterThan, List.filter_eq_nil_iff]
              intro b hb
              simp only [decide_eq_true_eq]
              exact Nat.not_lt.mpr (hmax b hb)
            exact Or.inl (Or.inr (by rw [hRnil]; rfl))
          · have haR := hmemR a ha hok haw
            refine Or.inr (hIH.mpr (Or.inr ⟨a, haR, hok, ?_⟩))
            intro b hb
            exact hmax b (hRsub b hb)

/-- C1 counterexample: with two backends, the first put failing at time 1
and the second succeeding at time 2 with a failing sync-queue write, the
multiplexed put reports success even though no backend has both its put and
its queue write succeed and not all backend puts succeed: select_ok has
already dropped the failed put, so finish_put sees no remaining puts and
declares the blob written to all blobstores. -/
theorem multiplexed_put_quorum_counterexample :
    multiplexed_put [⟨1, false, false⟩, ⟨2, true, false⟩] = true
    ∧ ¬ ((∃ a ∈ [(⟨1, false, false⟩ : PutAttempt), ⟨2, true, false⟩],
            a.putOk = true ∧ a.queueOk = true)
        ∨ (∀ a ∈ [(⟨1, false, false⟩ : PutAttempt), ⟨2, true, false⟩],
            a.putOk = true)) := by
  constructor
  · rfl
  · decide

/-- C1 (amended): for distinct completion times, a multiplexed put succeeds
exactly when some backend put and its sync-queue write both succeed, or the
last backend put to complete succeeds (in particular when all backend puts
succeed); it fails exactly when neither holds. -/
theorem multiplexed_put_characterization :
    ∀ (l : List PutAttempt),
      l.Pairwise (fun a b => a.time ≠ b.time) →
      (multiplexed_put l = true ↔
        (∃ a ∈ l, a.putOk = true ∧ a.queueOk = true)
        ∨ (∃ a ∈ l, a.putOk = true ∧ ∀ b ∈ l, b.time ≤ a.time)) :=
  fun l hpw => multiplexed_put_fuel_spec l.length l (Nat.le_refl _) hpw

/-- C1 witness: a put whose first backend succeeds together with its queue
write succeeds, and a put whose backends all fail does not. -/
theorem multiplexed_put_characterization_witness :
    multiplexed_put [⟨1, true, true⟩, ⟨2, false, false⟩] = true
    ∧ multiplexed_put [⟨1, false, false⟩, ⟨2, false, false⟩] ≠ true := by
  constructor
  · exact (multiplexed_put_characterization
      [⟨1, true, true⟩, ⟨2, false, false⟩] (by decide)).mpr
      (Or.inl ⟨⟨1, true, true⟩, by decide, rfl, rfl⟩)
  · intro h
    rcases (multiplexed_put_characterization
        [⟨1, false, false⟩, ⟨2, false, false⟩] (by decide)).mp h with
      ⟨a, ha, hok, _⟩ | ⟨a, ha, hok, _⟩ <;>
      (revert hok; fin_cases ha <;> decide)

end Multiplex

namespace Derive

theorem discoverLoop_empty_queue {V : Type} (inner : List (Nat × V)) (par : Nat → List Nat) :
    ∀ (fuel : Nat) (visited : List Nat) (acc : List (Nat × List Nat)),
      discoverLoop inner par fuel [] visited acc = some acc := by
  intro fuel visited acc
  cases fuel <;> rfl

theorem derive_impl_mapped {V : Type} (D : Nat → List V → V) (par : Nat → List Nat)
    (lease : Nat → LeaseTry) (fuelBfs fuelLease : Nat) (inner0 : List (Nat × V))
    (start : Nat) (v : V) (hfuel : 1 ≤ fuelBfs)
    (hmap : alookup inner0 start = some v) :
    derive_impl D par lease fuelBfs fuelLease inner0 start = some (inner0, 0, v) := by
  obtain ⟨k, rfl⟩ : ∃ k, fuelBfs = k + 1 := ⟨fuelBfs - 1, by omega⟩
  have hd : discoverLoop inner0 par (k + 1) [start] [] [] = some [] := by
    simp only [discoverLoop, hmap]
    exact discoverLoop_empty_queue inner0 par k [] []
  have hs : Graph.sort_topological [] = some [] := rfl
  simp only [derive_impl, hd, hs, List.filter_nil, List.map_nil]
  simp only [toChunks, toChunksAux, deriveChunks, hmap]

theorem derive_impl_fetch {V : Type} (D : Nat → List V → V) (par : Nat → List Nat)
    (lease : Nat → LeaseTry) (fuelBfs fuelLease : Nat) (inner0 : List (Nat × V))
    (start : Nat) (inner1 : List (Nat × V)) (n : Nat) (v : V)
    (h : derive_impl D par lease fuelBfs fuelLease inner0 start = some (inner1, n, v)) :
    alookup inner1 start = some v := by
  simp only [derive_impl] at h
  split at h
  · cases h
  · split at h
    · cases h
    · split at h
      · cases h
      · split at h
        · cases h
        · rename_i stF hchunks v0 hfetch
          simp only [Option.some.injEq, Prod.mk.injEq] at h
          obtain ⟨hi, _, hv⟩ := h
          rw [← hi, ← hv]
          exact hfetch

/-- C5: when the start changeset already has a mapping entry, derive returns
exactly the stored value, leaves the mapping untouched, and performs zero
derive_from_parents calls, whatever the parents function (ancestors need no
entries); and a second derive over the mapping store left by any successful
derive returns the same value with zero further derive_from_parents calls. -/
theorem derive_impl_idempotent {V : Type} :
    (∀ (D : Nat → List V → V) (par : Nat → List Nat) (lease : Nat → LeaseTry)
        (fuelBfs fuelLease : Nat) (inner0 : List (Nat × V)) (start : Nat) (v : V),
      1 ≤ fuelBfs →
      alookup inner0 start = some v →
      derive_impl D par lease fuelBfs fuelLease inner0 start = some (inner0, 0, v))
    ∧ (∀ (D : Nat → List V → V) (par : Nat → List Nat) (lease lease2 : Nat → LeaseTry)
        (fuelBfs fuelLease fuelBfs2 fuelLease2 : Nat) (inner0 inner1 : List (Nat × V))
        (start n : Nat) (v : V),
      derive_impl D par lease fuelBfs fuelLease inner0 start = some (inner1, n, v) →
      1 ≤ fuelBfs2 →
      derive_impl D par lease2 fuelBfs2 fuelLease2 inner1 start = some (inner1, 0, v)) := by
  constructor
  · intro D par lease fuelBfs fuelLease inner0 start v hfuel hmap
    exact derive_impl_mapped D par lease fuelBfs fuelLease inner0 start v hfuel hmap
  · intro D par lease lease2 fuelBfs fuelLease fuelBfs2 fuelLease2 inner0 inner1
      start n v h hfuel2
    have hv := derive_impl_fetch D par lease fuelBfs fuelLease inner0 start inner1 n v h
    exact derive_impl_mapped D par lease2 fuelBfs2 fuelLease2 inner1 start v hfuel2 hv

/-- C5 witness: a two-commit chain; with the start mapped to 9 and its
parent unmapped, derive returns 9 with zero derivations; and re-deriving
over the store left by a full derivation returns the derived value with
zero further derivations. -/
theorem derive_impl_idempotent_witness :
    derive_impl (fun _ ps => ps.foldr max 0 + 1)
        (fun cs => if cs = 2 then [1] else []) alwaysGrantedLease 5 5 [(2, 9)] 2
      = some ([(2, 9)], 0, 9)
    ∧ derive_impl (fun _ ps => ps.foldr max 0 + 1)
        (fun cs => if cs = 2 then [1] else []) alwaysGrantedLease 5 5 [(2, 2), (1, 1)] 2
      = some ([(2, 2), (1, 1)], 0, 2) := by
  constructor
  · exact derive_impl_idempotent.1 _ _ alwaysGrantedLease 5 5 [(2, 9)] 2 9
      (by decide) (by decide)
  · exact derive_impl_idempotent.2 _ _ alwaysGrantedLease alwaysGrantedLease 5 5 5 5
      [] [(2, 2), (1, 1)] 2 2 2 (by decide) (by decide)

theorem deriveLeaseLoop_failing {V : Type} (D : Nat → List V → V) (cs : Nat)
    (parentVals : List V) :
    ∀ (fuel : Nat) (st : DeriveState V),
      deriveLeaseLoop D alwaysFailingLease cs parentVals fuel st
        = deriveLeaseLoop D alwaysGrantedLease cs parentVals fuel st := by
  intro fuel st
  cases fuel with
  | zero => rfl
  | succ f => rfl

theorem derive_may_panic_failing {V : Type} (D : Nat → List V → V)
    (par : Nat → List Nat) (cs fuel : Nat) (st : DeriveState V) :
    derive_may_panic D par alwaysFailingLease cs fuel st
      = derive_may_panic D par alwaysGrantedLease cs fuel st := by
  rw [derive_may_panic, derive_may_panic]
  cases hpv : (par cs).mapM (mget st) with
  | none => rfl
  | some pv => exact deriveLeaseLoop_failing D cs pv fuel st

theorem deriveChunkItems_failing {V : Type} (D : Nat → List V → V)
    (par : Nat → List Nat) (fuelLease : Nat) :
    ∀ (chunk : List Nat) (st : DeriveState V),
      deriveChunkItems D par alwaysFailingLease fuelLease chunk st
        = deriveChunkItems D par alwaysGrantedLease fuelLease chunk st := by
  intro chunk
  induction chunk with
  | nil => intro st; rfl
  | cons cs rest ih =>
    intro st
    rw [deriveChunkItems, deriveChunkItems, derive_may_panic_failing]
    cases derive_may_panic D par alwaysGrantedLease cs fuelLease st with
    | none => rfl
    | some st2 => exact ih st2

theorem deriveChunks_failing {V : Type} (D : Nat → List V → V)
    (par : Nat → List Nat) (fuelLease : Nat) :
    ∀ (chunks : List (List Nat)) (st : DeriveState V),
      deriveChunks D par alwaysFailingLease fuelLease chunks st
        = deriveChunks D par alwaysGrantedLease fuelLease chunks st := by
  intro chunks
  induction chunks with
  | nil => intro st; rfl
  | cons chunk rest ih =>
    intro st
    rw [deriveChunks, deriveChunks, deriveChunkItems_failing]
    cases deriveChunkItems D par alwaysGrantedLease fuelLease chunk
        { st with cache := [] } with
    | none => rfl
    | some st2 => exact ih (persist st2)

/-- C4: the derived-data path fails open: with a LeaseOps whose every call
errors, derive_impl computes exactly what it computes with a lease that is
always granted (same result, same mapping writes, same derive count), and
on a concrete two-commit repo it completes successfully; but the
hg-generation path does not fail open: take_hg_generation_lease maps a
lease error to leased = false and then waits for other leases and retries,
so with an always-erroring lease and no existing bonsai-hg mapping entry
the retry loop never breaks, whatever the fuel: get_hg_from_bonsai_changeset
never completes. -/
theorem lease_fail_open_divergence :
    (∀ (V : Type) (D : Nat → List V → V) (par : Nat → List Nat)
        (fuelBfs fuelLease : Nat) (inner0 : List (Nat × V)) (start : Nat),
      derive_impl D par alwaysFailingLease fuelBfs fuelLease inner0 start
        = derive_impl D par alwaysGrantedLease fuelBfs fuelLease inner0 start)
    ∧ derive_impl (fun _ ps => ps.foldr max 0 + 1)
          (fun cs => if cs = 2 then [1] else []) alwaysFailingLease 5 5 [] 2
        = some ([(2, 2), (1, 1)], 2, 2)
    ∧ (∀ (fuel ctr : Nat),
        take_hg_generation_lease alwaysFailingLease [] 1 fuel ctr = none) := by
  refine ⟨?_, by decide, ?_⟩
  · intro V D par fuelBfs fuelLease inner0 start
    cases hd : discoverLoop inner0 par fuelBfs [start] [] [] with
    | none => simp only [derive_impl, hd]
    | some nd =>
      cases hs : Graph.sort_topological nd with
      | none => simp only [derive_impl, hd, hs]
      | some sorted =>
        simp only [derive_impl, hd, hs]
        rw [deriveChunks_failing]
  · intro fuel
    induction fuel with
    | zero => intro ctr; rfl
    | succ f ih => intro ctr; exact ih (ctr + 1)

end Derive
